import Mathlib

/-!
Verification of the coordinate-projection and density-clustering pipeline of
the pymapgis-jupyter repository.

The repository drives its analyses through a density-based clustering pass
(DBSCAN) over planar-projected points, a UTM zone selector, a synthetic
point generator seeded through the global NumPy random state, and a small
statistics layer.  The clustering algorithm itself lives in an external
library, so it is modelled here from the specification (section 4.3); the
zone selector, the statistics heuristics, the generation script and the
label consumers are embedded from the repository sources.  Floating-point
quantities are modelled as rationals.
-/

namespace PMG

/-- A point in the planar (projected, metre-based) coordinate frame. -/
structure PlanarPoint where
  x : ℚ
  y : ℚ
deriving DecidableEq, Inhabited

/-- Squared Euclidean distance between two planar points, in square metres.
The source compares the Euclidean distance against eps; comparing squares is
equivalent and keeps all arithmetic rational. -/
def sqDist (p q : PlanarPoint) : ℚ :=
  (p.x - q.x) * (p.x - q.x) + (p.y - q.y) * (p.y - q.y)

/-- Euclidean distance at most eps, stated on squared quantities. -/
def withinEps (eps : ℚ) (p q : PlanarPoint) : Prop :=
  sqDist p q ≤ eps * eps

instance (eps : ℚ) (p q : PlanarPoint) : Decidable (withinEps eps p q) :=
  inferInstanceAs (Decidable (sqDist p q ≤ eps * eps))

/-- Modelled from the spec: the eps-neighbourhood of point i, the indices of
all points (the point itself included) within Euclidean distance eps of it
(spec 4.3 step 1).  The clustering implementation itself is external library
code absent from the repository sources. -/
def nbhd (pts : List PlanarPoint) (eps : ℚ) (i : ℕ) : List ℕ :=
  (List.range pts.length).filter fun j =>
    decide (withinEps eps (pts.getD i default) (pts.getD j default))

/-- Modelled from the spec: a core point is one whose eps-neighbourhood,
itself included, has at least minSamples members. -/
def isCore (pts : List PlanarPoint) (eps : ℚ) (minSamples : ℕ) (i : ℕ) : Prop :=
  minSamples ≤ (nbhd pts eps i).length

instance (pts : List PlanarPoint) (eps : ℚ) (minSamples i : ℕ) :
    Decidable (isCore pts eps minSamples i) :=
  inferInstanceAs (Decidable (minSamples ≤ (nbhd pts eps i).length))

/-- Modelled from the spec (4.3 step 2): flood-fill expansion of cluster c.
The queue holds indices waiting to be absorbed; an unlabelled index is given
label c and, when it is a core point, its whole eps-neighbourhood is
enqueued; already-labelled points are never reassigned.  The fuel argument
only bounds the recursion and is always chosen large enough (see fuelBound)
that the queue empties before the fuel does. -/
def expand (pts : List PlanarPoint) (eps : ℚ) (minSamples : ℕ) (c : ℕ) :
    ℕ → List ℤ → List ℕ → List ℤ
  | _, labels, [] => labels
  | 0, labels, _ :: _ => labels
  | fuel + 1, labels, j :: rest =>
    if labels.getD j 0 = -1 then
      if isCore pts eps minSamples j then
        expand pts eps minSamples c fuel (labels.set j (c : ℤ))
          (rest ++ nbhd pts eps j)
      else
        expand pts eps minSamples c fuel (labels.set j (c : ℤ)) rest
    else
      expand pts eps minSamples c fuel labels rest

/-- Strictly more fuel than any flood fill over pts can consume. -/
def fuelBound (pts : List PlanarPoint) : ℕ :=
  (pts.length + 1) * (pts.length + 1)

/-- Modelled from the spec (4.3 step 2): points are processed in input order;
each not-yet-labelled core point starts a new cluster, grown by expand; c is
the next fresh cluster id (0-based, discovery order). -/
def runLoop (pts : List PlanarPoint) (eps : ℚ) (minSamples : ℕ) :
    List ℕ → List ℤ → ℕ → List ℤ
  | [], labels, _ => labels
  | i :: rest, labels, c =>
    if labels.getD i 0 = -1 ∧ isCore pts eps minSamples i then
      runLoop pts eps minSamples rest
        (expand pts eps minSamples c (fuelBound pts) labels [i]) (c + 1)
    else
      runLoop pts eps minSamples rest labels c

/-- Modelled from the spec: the full clustering pass.  Every point starts as
noise (-1) and ends either still -1 or carrying a 0-based cluster id. -/
def dbscanLabels (pts : List PlanarPoint) (eps : ℚ) (minSamples : ℕ) : List ℤ :=
  runLoop pts eps minSamples (List.range pts.length)
    (List.replicate pts.length (-1)) 0

/-- Validation failures of the clustering entry point (spec section 7). -/
inductive ClusterError where
  | invalidConfig : ClusterError
  | emptyInput : ClusterError
deriving DecidableEq

/-- Modelled from the spec (4.3 contract and section 7): cluster validates
eps > 0, minSamples >= 1 and non-emptiness of the input before any
computation, then returns one label per input point, in input order. -/
def cluster (pts : List PlanarPoint) (eps : ℚ) (minSamples : ℕ) :
    Except ClusterError (List ℤ) :=
  if eps ≤ 0 ∨ minSamples < 1 then .error .invalidConfig
  else if pts.isEmpty then .error .emptyInput
  else .ok (dbscanLabels pts eps minSamples)

/-- Noise count as the source computes it: sum(cluster_labels == -1). -/
def noisePoints (labels : List ℤ) : ℕ :=
  labels.countP fun z => decide (z = -1)

/-- Cluster count as the source computes it:
len(set(labels)) - (1 if -1 in labels else 0). -/
def numClusters (labels : List ℤ) : ℕ :=
  labels.dedup.length - (if -1 ∈ labels then 1 else 0)

/-- The folium colour palette of the source visualization guide. -/
def clusterColors : List String :=
  ["red", "blue", "green", "purple", "orange", "darkred",
   "lightred", "beige", "darkblue", "darkgreen", "cadetblue"]

/-- From the source visualization guide: noise points are drawn gray, points
of cluster k get colors[k mod len(colors)]. -/
def get_cluster_color (cluster_id : ℤ) : String :=
  if cluster_id = -1 then "gray"
  else clusterColors.getD (cluster_id % (clusterColors.length : ℤ)).toNat "gray"

/-- Python int() applied to a rational: truncation toward zero. -/
def pyInt (q : ℚ) : ℤ :=
  if 0 ≤ q then ⌊q⌋ else -⌊-q⌋

/-- From the source (data-import and add-city guides):
utm_zone = int((longitude + 180) / 6) + 1. -/
def utm_zone (longitude : ℚ) : ℤ :=
  pyInt ((longitude + 180) / 6) + 1

/-- From the source (data-import guide, get_utm_epsg): the EPSG code is
32600 + zone, the comment noting that the Northern Hemisphere is assumed. -/
def get_utm_epsg (longitude : ℚ) : ℤ :=
  32600 + utm_zone longitude

/-- EPSG codes 326XX are northern-hemisphere UTM systems, 327XX southern
(source, creating-notebooks guide). -/
def epsgIsNorthern (e : ℤ) : Prop :=
  32600 < e ∧ e < 32700

instance (e : ℤ) : Decidable (epsgIsNorthern e) :=
  inferInstanceAs (Decidable (32600 < e ∧ e < 32700))

/-- Geodetic coordinates in decimal degrees (WGS84). -/
structure GeodeticPoint where
  lon : ℚ
  lat : ℚ
deriving DecidableEq

/-- The valid coordinate ranges of spec section 3. -/
def validGeodetic (p : GeodeticPoint) : Prop :=
  -180 ≤ p.lon ∧ p.lon ≤ 180 ∧ -90 ≤ p.lat ∧ p.lat ≤ 90

instance (p : GeodeticPoint) : Decidable (validGeodetic p) :=
  inferInstanceAs (Decidable (-180 ≤ p.lon ∧ p.lon ≤ 180 ∧ -90 ≤ p.lat ∧ p.lat ≤ 90))

/-- Failure mode of the projection entry point. -/
inductive ProjectionError where
  | validationError : ProjectionError
deriving DecidableEq

/-- Modelled from the spec: the validation and zone-selection part of
CoordinateProjector.toPlanar, whose numeric transform is realised by the
external projection library and is absent from the repository sources.
Out-of-range coordinates raise a validation error and are never clamped;
an in-range point is projected into the zone that get_utm_epsg selects from
its unmodified longitude. -/
def toPlanarZone (p : GeodeticPoint) : Except ProjectionError ℤ :=
  if validGeodetic p then .ok (get_utm_epsg p.lon)
  else .error .validationError

/-- From the source (data-import guide): suggested_eps is one twentieth of
the smaller bounding-box side. -/
def suggested_eps (width height : ℚ) : ℚ :=
  min width height / 20

/-- From the source (data-import guide): point density in points per km². -/
def points_per_km2 (count : ℕ) (width height : ℚ) : ℚ :=
  (count : ℚ) / (width * height / 1000000)

/-- From the source (data-import guide):
suggested_min_samples = max(3, int(points_per_km2 / 10)). -/
def suggested_min_samples (density : ℚ) : ℤ :=
  max 3 (pyInt (density / 10))

/-- Modelled from the spec and the generation cells of the source notebooks:
the global NumPy random state.  The Mersenne Twister is abstracted to the
pair (seed, draws made so far); each draw is a fixed deterministic function
of that state, which is all that determinism and state-dependence arguments
require. -/
structure RngState where
  seedVal : ℕ
  draws : ℕ
deriving DecidableEq

/-- Modelled np.random.seed: reset the global state from the seed value. -/
def np_random_seed (s : ℕ) : RngState :=
  ⟨s, 0⟩

/-- One raw draw from the global state, advancing it. -/
def rawDraw (st : RngState) : ℚ × RngState :=
  ((st.seedVal + st.draws : ℚ), ⟨st.seedVal, st.draws + 1⟩)

/-- Modelled np.random.normal(mu, sigma): mu plus sigma times a draw. -/
def np_random_normal (mu sigma : ℚ) (st : RngState) : ℚ × RngState :=
  let d := rawDraw st
  (mu + sigma * d.1, d.2)

/-- Modelled np.random.uniform(lo, hi): lo plus the range times a draw. -/
def np_random_uniform (lo hi : ℚ) (st : RngState) : ℚ × RngState :=
  let d := rawDraw st
  (lo + (hi - lo) * d.1, d.2)

/-- From the source (creating-notebooks guide, create_hotspot): for each of
num_points iterations draw a normal latitude and then a normal longitude
around the center, all through the global random state. -/
def create_hotspot (center_lat center_lon : ℚ) (num_points : ℕ) (spread : ℚ)
    (st : RngState) : List GeodeticPoint × RngState :=
  match num_points with
  | 0 => ([], st)
  | n + 1 =>
    let latDraw := np_random_normal center_lat spread st
    let lonDraw := np_random_normal center_lon spread latDraw.2
    let rest := create_hotspot center_lat center_lon n spread lonDraw.2
    (⟨lonDraw.1, latDraw.1⟩ :: rest.1, rest.2)

/-- A hotspot request: center, point count and spread (spec section 3). -/
structure Hotspot where
  center_lat : ℚ
  center_lon : ℚ
  count : ℕ
  spread : ℚ

/-- From the source generation cells: noise points drawn uniformly inside the
bounding box, one latitude draw then one longitude draw per point. -/
def create_noise (lat_min lat_max lon_min lon_max : ℚ) (noiseCount : ℕ)
    (st : RngState) : List GeodeticPoint × RngState :=
  match noiseCount with
  | 0 => ([], st)
  | n + 1 =>
    let latDraw := np_random_uniform lat_min lat_max st
    let lonDraw := np_random_uniform lon_min lon_max latDraw.2
    let rest := create_noise lat_min lat_max lon_min lon_max n lonDraw.2
    (⟨lonDraw.1, latDraw.1⟩ :: rest.1, rest.2)

/-- From the source generation cells: all hotspots in order, then the noise. -/
def generate_points (hotspots : List Hotspot) (noiseCount : ℕ)
    (lat_min lat_max lon_min lon_max : ℚ) (st : RngState) :
    List GeodeticPoint × RngState :=
  match hotspots with
  | [] => create_noise lat_min lat_max lon_min lon_max noiseCount st
  | h :: rest =>
    let first := create_hotspot h.center_lat h.center_lon h.count h.spread st
    let more := generate_points rest noiseCount lat_min lat_max lon_min lon_max first.2
    (first.1 ++ more.1, more.2)

/-- The generation script as the source runs it: np.random.seed(seed) comes
first, so whatever global random state the script found - the ambient
argument - is overwritten before any draw is made. -/
def runGeneration (_ambient : RngState) (seed : ℕ) (hotspots : List Hotspot)
    (noiseCount : ℕ) (lat_min lat_max lon_min lon_max : ℚ) : List GeodeticPoint :=
  (generate_points hotspots noiseCount lat_min lat_max lon_min lon_max
    (np_random_seed seed)).1

/-- Seven collinear planar points, spaced so that the two dense groups at the
ends are separated by the single point at x = 2, which lies within radius two
of a core point of each group while the groups stay apart.  Used to exercise
the clustering pass on concrete input. -/
def examplePts : List PlanarPoint :=
  [⟨-2, 0⟩, ⟨-1, 0⟩, ⟨0, 0⟩, ⟨2, 0⟩, ⟨4, 0⟩, ⟨5, 0⟩, ⟨6, 0⟩]

/-- A label is either the noise sentinel -1 or a non-negative cluster id. -/
def labelOk (z : ℤ) : Prop :=
  z = -1 ∨ 0 ≤ z

/-- Index i lies within eps of some core point (spec: i is core or border). -/
def nearCore (pts : List PlanarPoint) (eps : ℚ) (m : ℕ) (i : ℕ) : Prop :=
  ∃ j, j < pts.length ∧ isCore pts eps m j ∧
    withinEps eps (pts.getD i default) (pts.getD j default)

/-- Every labelled core point has its whole neighbourhood labelled, except
possibly for indices still waiting in the work queue. -/
def closedUpTo (pts : List PlanarPoint) (eps : ℚ) (m : ℕ)
    (labels : List ℤ) (queue : List ℕ) : Prop :=
  ∀ j, j < pts.length → isCore pts eps m j → labels.getD j 0 ≠ -1 →
    ∀ i ∈ nbhd pts eps j, labels.getD i 0 ≠ -1 ∨ i ∈ queue

/-- Every core point labelled with a cluster other than the one currently
being grown already has its whole neighbourhood labelled. -/
def oldClosed (pts : List PlanarPoint) (eps : ℚ) (m : ℕ) (c : ℕ)
    (labels : List ℤ) : Prop :=
  ∀ j, j < pts.length → isCore pts eps m j → labels.getD j 0 ≠ -1 →
    labels.getD j 0 ≠ (c : ℤ) →
    ∀ i ∈ nbhd pts eps j, labels.getD i 0 ≠ -1

/-- Labelled core points within eps of each other carry the same label. -/
def coherent (pts : List PlanarPoint) (eps : ℚ) (m : ℕ)
    (labels : List ℤ) : Prop :=
  ∀ p q, p < pts.length → q < pts.length →
    isCore pts eps m p → isCore pts eps m q →
    withinEps eps (pts.getD p default) (pts.getD q default) →
    labels.getD p 0 ≠ -1 → labels.getD q 0 ≠ -1 →
    labels.getD p 0 = labels.getD q 0

theorem sqDist_comm (p q : PlanarPoint) : sqDist p q = sqDist q p := by
  unfold sqDist; ring

theorem withinEps_symm {eps : ℚ} {p q : PlanarPoint}
    (h : withinEps eps p q) : withinEps eps q p := by
  unfold withinEps at h ⊢; rwa [sqDist_comm]

theorem withinEps_self (eps : ℚ) (p : PlanarPoint) : withinEps eps p p := by
  unfold withinEps sqDist
  have : p.x - p.x = 0 := sub_self _
  rw [this, sub_self]
  simpa using mul_self_nonneg eps

theorem mem_nbhd {pts : List PlanarPoint} {eps : ℚ} {j i : ℕ} :
    i ∈ nbhd pts eps j ↔
      i < pts.length ∧ withinEps eps (pts.getD j default) (pts.getD i default) := by
  unfold nbhd
  simp [List.mem_filter, List.mem_range]

theorem nbhd_length_le (pts : List PlanarPoint) (eps : ℚ) (j : ℕ) :
    (nbhd pts eps j).length ≤ pts.length := by
  unfold nbhd
  calc (List.filter _ (List.range pts.length)).length
      ≤ (List.range pts.length).length := List.length_filter_le _ _
    _ = pts.length := List.length_range _

theorem self_mem_nbhd {pts : List PlanarPoint} {eps : ℚ} {i : ℕ}
    (h : i < pts.length) : i ∈ nbhd pts eps i :=
  mem_nbhd.mpr ⟨h, withinEps_self eps _⟩

theorem getD_lt_length {l : List ℤ} {j : ℕ} (h : l.getD j 0 = -1) :
    j < l.length := by
  by_contra hj
  rw [List.getD_eq_getElem?_getD, List.getElem?_eq_none (by omega), Option.getD_none] at h
  exact absurd h (by decide)

theorem getD_set_self {l : List ℤ} {j : ℕ} (a : ℤ) (h : j < l.length) :
    (l.set j a).getD j 0 = a := by
  rw [List.getD_eq_getElem?_getD, List.getElem?_set_self h, Option.getD_some]

theorem getD_set_ne {l : List ℤ} {i j : ℕ} (a : ℤ) (h : i ≠ j) :
    (l.set i a).getD j 0 = l.getD j 0 := by
  rw [List.getD_eq_getElem?_getD, List.getElem?_set_ne h,
    ← List.getD_eq_getElem?_getD]

theorem natCast_ne_neg_one (c : ℕ) : (c : ℤ) ≠ -1 := by
  omega

theorem countP_set_add (p : ℤ → Bool) (l : List ℤ) (j : ℕ) (a : ℤ)
    (h : j < l.length) :
    (l.set j a).countP p + (if p (l.getD j 0) then 1 else 0)
      = l.countP p + (if p a then 1 else 0) := by
  induction l generalizing j with
  | nil => simp at h
  | cons x xs ih =>
    cases j with
    | zero => simp [List.countP_cons]; omega
    | succ j =>
      have hj : j < xs.length := by simpa using h
      have := ih j hj
      simp only [List.set_cons_succ, List.countP_cons, List.getD_cons_succ]
      omega

theorem noisePoints_set (l : List ℤ) (j c : ℕ) (h : l.getD j 0 = -1) :
    noisePoints (l.set j (c : ℤ)) + 1 = noisePoints l := by
  have hj : j < l.length := getD_lt_length h
  have := countP_set_add (fun z => decide (z = -1)) l j (c : ℤ) hj
  rw [h] at this
  simpa [noisePoints, natCast_ne_neg_one c] using this

theorem expand_nil (pts : List PlanarPoint) (eps : ℚ) (m c : ℕ)
    (fuel : ℕ) (labels : List ℤ) :
    expand pts eps m c fuel labels [] = labels := by
  cases fuel <;> rfl

theorem expand_zero (pts : List PlanarPoint) (eps : ℚ) (m c : ℕ)
    (labels : List ℤ) (queue : List ℕ) :
    expand pts eps m c 0 labels queue = labels := by
  cases queue <;> rfl

theorem expand_cons_core {pts : List PlanarPoint} {eps : ℚ} {m : ℕ}
    {labels : List ℤ} {j : ℕ} (c f : ℕ) (rest : List ℕ)
    (h1 : labels.getD j 0 = -1) (h2 : isCore pts eps m j) :
    expand pts eps m c (f + 1) labels (j :: rest)
      = expand pts eps m c f (labels.set j (c : ℤ)) (rest ++ nbhd pts eps j) := by
  rw [expand, if_pos h1, if_pos h2]

theorem expand_cons_border {pts : List PlanarPoint} {eps : ℚ} {m : ℕ}
    {labels : List ℤ} {j : ℕ} (c f : ℕ) (rest : List ℕ)
    (h1 : labels.getD j 0 = -1) (h2 : ¬ isCore pts eps m j) :
    expand pts eps m c (f + 1) labels (j :: rest)
      = expand pts eps m c f (labels.set j (c : ℤ)) rest := by
  rw [expand, if_pos h1, if_neg h2]

theorem expand_cons_skip {pts : List PlanarPoint} {eps : ℚ} {m : ℕ}
    {labels : List ℤ} {j : ℕ} (c f : ℕ) (rest : List ℕ)
    (h1 : ¬ labels.getD j 0 = -1) :
    expand pts eps m c (f + 1) labels (j :: rest)
      = expand pts eps m c f labels rest := by
  rw [expand, if_neg h1]

theorem expand_length (pts : List PlanarPoint) (eps : ℚ) (m c : ℕ)
    (fuel : ℕ) (labels : List ℤ) (queue : List ℕ) :
    (expand pts eps m c fuel labels queue).length = labels.length := by
  induction fuel generalizing labels queue with
  | zero => rw [expand_zero]
  | succ f ih =>
    cases queue with
    | nil => rw [expand_nil]
    | cons j rest =>
      by_cases h1 : labels.getD j 0 = -1
      · by_cases h2 : isCore pts eps m j
        · rw [expand_cons_core c f rest h1 h2, ih, List.length_set]
        · rw [expand_cons_border c f rest h1 h2, ih, List.length_set]
      · rw [expand_cons_skip c f rest h1, ih]

theorem expand_getD (pts : List PlanarPoint) (eps : ℚ) (m c : ℕ)
    (fuel : ℕ) (labels : List ℤ) (queue : List ℕ) (i : ℕ) :
    (expand pts eps m c fuel labels queue).getD i 0 = labels.getD i 0 ∨
      (labels.getD i 0 = -1 ∧
        (expand pts eps m c fuel labels queue).getD i 0 = (c : ℤ)) := by
  induction fuel generalizing labels queue with
  | zero => rw [expand_zero]; exact Or.inl rfl
  | succ f ih =>
    cases queue with
    | nil => rw [expand_nil]; exact Or.inl rfl
    | cons j rest =>
      by_cases h1 : labels.getD j 0 = -1
      · have hstep : ∀ q : List ℕ,
            (expand pts eps m c f (labels.set j (c : ℤ)) q).getD i 0
                = labels.getD i 0 ∨
              (labels.getD i 0 = -1 ∧
                (expand pts eps m c f (labels.set j (c : ℤ)) q).getD i 0
                  = (c : ℤ)) := by
          intro q
          rcases ih (labels.set j (c : ℤ)) q with h | ⟨hm1, hc⟩
          · by_cases hij : j = i
            · subst hij
              rw [getD_set_self _ (getD_lt_length h1)] at h
              exact Or.inr ⟨h1, h⟩
            · rw [getD_set_ne _ hij] at h
              exact Or.inl h
          · by_cases hij : j = i
            · subst hij
              rw [getD_set_self _ (getD_lt_length h1)] at hm1
              exact absurd hm1 (natCast_ne_neg_one c)
            · rw [getD_set_ne _ hij] at hm1
              exact Or.inr ⟨hm1, hc⟩
        by_cases h2 : isCore pts eps m j
        · rw [expand_cons_core c f rest h1 h2]
          exact hstep (rest ++ nbhd pts eps j)
        · rw [expand_cons_border c f rest h1 h2]
          exact hstep rest
      · rw [expand_cons_skip c f rest h1]
        exact ih labels rest

theorem expand_monotone (pts : List PlanarPoint) (eps : ℚ) (m c : ℕ)
    (fuel : ℕ) (labels : List ℤ) (queue : List ℕ) (i : ℕ)
    (h : labels.getD i 0 ≠ -1) :
    (expand pts eps m c fuel labels queue).getD i 0 = labels.getD i 0 := by
  rcases expand_getD pts eps m c fuel labels queue i with h' | ⟨hm1, _⟩
  · exact h'
  · exact absurd hm1 h

theorem expand_labelOk (pts : List PlanarPoint) (eps : ℚ) (m c : ℕ)
    (fuel : ℕ) (labels : List ℤ) (queue : List ℕ)
    (h : ∀ i, labelOk (labels.getD i 0)) (i : ℕ) :
    labelOk ((expand pts eps m c fuel labels queue).getD i 0) := by
  rcases expand_getD pts eps m c fuel labels queue i with h' | ⟨_, hc⟩
  · rw [h']; exact h i
  · rw [hc]; exact Or.inr (Int.natCast_nonneg c)

theorem expand_sound (pts : List PlanarPoint) (eps : ℚ) (m c : ℕ)
    (fuel : ℕ) (labels : List ℤ) (queue : List ℕ)
    (hlen : labels.length = pts.length)
    (hl : ∀ i, i < pts.length → labels.getD i 0 ≠ -1 → nearCore pts eps m i)
    (hq : ∀ j ∈ queue, nearCore pts eps m j) :
    ∀ i, i < pts.length →
      (expand pts eps m c fuel labels queue).getD i 0 ≠ -1 →
        nearCore pts eps m i := by
  induction fuel generalizing labels queue with
  | zero => rw [expand_zero]; exact hl
  | succ f ih =>
    cases queue with
    | nil => rw [expand_nil]; exact hl
    | cons j rest =>
      by_cases h1 : labels.getD j 0 = -1
      · have hl' : ∀ i, i < pts.length →
            (labels.set j (c : ℤ)).getD i 0 ≠ -1 → nearCore pts eps m i := by
          intro i hi hne
          by_cases hij : j = i
          · subst hij; exact hq j (by simp)
          · rw [getD_set_ne _ hij] at hne
            exact hl i hi hne
        by_cases h2 : isCore pts eps m j
        · have hq' : ∀ i ∈ rest ++ nbhd pts eps j, nearCore pts eps m i := by
            intro i hi
            rcases List.mem_append.mp hi with hi | hi
            · exact hq i (by simp [hi])
            · rcases mem_nbhd.mp hi with ⟨hilt, hw⟩
              exact ⟨j, getD_lt_length h1 |>.trans_eq hlen, h2, withinEps_symm hw⟩
          rw [expand_cons_core c f rest h1 h2]
          exact ih (labels.set j (c : ℤ)) (rest ++ nbhd pts eps j)
            (by simpa [List.length_set] using hlen) hl' hq'
        · rw [expand_cons_border c f rest h1 h2]
          exact ih (labels.set j (c : ℤ)) rest
            (by simpa [List.length_set] using hlen) hl'
            (fun i hi => hq i (by simp [hi]))
      · rw [expand_cons_skip c f rest h1]
        exact ih labels rest hlen hl (fun i hi => hq i (by simp [hi]))

theorem expand_complete (pts : List PlanarPoint) (eps : ℚ) (m c : ℕ)
    (fuel : ℕ) (labels : List ℤ) (queue : List ℕ)
    (hlen : labels.length = pts.length)
    (hqlt : ∀ j ∈ queue, j < pts.length)
    (hfuel : (pts.length + 1) * noisePoints labels + queue.length < fuel)
    (hD : closedUpTo pts eps m labels queue)
    (hE : oldClosed pts eps m c labels)
    (hF : coherent pts eps m labels) :
    (∀ j ∈ queue, (expand pts eps m c fuel labels queue).getD j 0 ≠ -1) ∧
      closedUpTo pts eps m (expand pts eps m c fuel labels queue) [] ∧
      coherent pts eps m (expand pts eps m c fuel labels queue) := by
  induction fuel generalizing labels queue with
  | zero => exact absurd hfuel (Nat.not_lt_zero _)
  | succ f ih =>
    cases queue with
    | nil =>
      rw [expand_nil]
      exact ⟨by simp, hD, hF⟩
    | cons j rest =>
      have hjn : j < pts.length := hqlt j (by simp)
      by_cases h1 : labels.getD j 0 = -1
      · have hjl : j < labels.length := getD_lt_length h1
        have hgetj : (labels.set j (c : ℤ)).getD j 0 = (c : ℤ) :=
          getD_set_self _ hjl
        have hne : (labels.set j (c : ℤ)).getD j 0 ≠ -1 := by
          rw [hgetj]; exact natCast_ne_neg_one c
        have hlen' : (labels.set j (c : ℤ)).length = pts.length := by
          simpa [List.length_set] using hlen
        have hcount : noisePoints (labels.set j (c : ℤ)) + 1 = noisePoints labels :=
          noisePoints_set labels j c h1
        have hgd' : ∀ i, i ≠ j →
            (labels.set j (c : ℤ)).getD i 0 = labels.getD i 0 :=
          fun i hij => getD_set_ne _ (fun h => hij h.symm)
        have hmulsplit : (pts.length + 1) * noisePoints labels
            = (pts.length + 1) * noisePoints (labels.set j (c : ℤ))
              + (pts.length + 1) := by
          rw [← hcount, Nat.mul_add, Nat.mul_one]
        have hE' : oldClosed pts eps m c (labels.set j (c : ℤ)) := by
          intro j' hj' hcore' hne' hnec i hi
          by_cases hjj : j' = j
          · subst hjj; rw [hgetj] at hnec; exact absurd rfl hnec
          · rw [hgd' j' hjj] at hne' hnec
            have hall := hE j' hj' hcore' hne' hnec i hi
            by_cases hij : i = j
            · subst hij; exact hne
            · rw [hgd' i hij]; exact hall
        have hF' : coherent pts eps m (labels.set j (c : ℤ)) := by
          intro p q hp hq hcp hcq hw hnp hnq
          by_cases hpj : p = j
          · by_cases hqj : q = j
            · subst hpj; subst hqj; rfl
            · subst hpj
              rw [hgd' q hqj] at hnq ⊢
              rw [hgetj]
              by_cases hqc : labels.getD q 0 = (c : ℤ)
              · rw [hqc]
              · exfalso
                have hjq : p ∈ nbhd pts eps q :=
                  mem_nbhd.mpr ⟨hjn, withinEps_symm hw⟩
                exact (hE q hq hcq hnq hqc p hjq) h1
          · by_cases hqj : q = j
            · subst hqj
              rw [hgd' p hpj] at hnp ⊢
              rw [hgetj]
              by_cases hpc : labels.getD p 0 = (c : ℤ)
              · rw [hpc]
              · exfalso
                have hjp : q ∈ nbhd pts eps p := mem_nbhd.mpr ⟨hjn, hw⟩
                exact (hE p hp hcp hnp hpc q hjp) h1
            · rw [hgd' p hpj] at hnp ⊢
              rw [hgd' q hqj] at hnq ⊢
              exact hF p q hp hq hcp hcq hw hnp hnq
        by_cases h2 : isCore pts eps m j
        · rw [expand_cons_core c f rest h1 h2]
          have hqlt' : ∀ i ∈ rest ++ nbhd pts eps j, i < pts.length := by
            intro i hi
            rcases List.mem_append.mp hi with hi | hi
            · exact hqlt i (by simp [hi])
            · exact (mem_nbhd.mp hi).1
          have hfuel' : (pts.length + 1) * noisePoints (labels.set j (c : ℤ))
              + (rest ++ nbhd pts eps j).length < f := by
            have hnb := nbhd_length_le pts eps j
            have hlang : (rest ++ nbhd pts eps j).length
                = rest.length + (nbhd pts eps j).length := List.length_append _ _
            have h3' : (pts.length + 1) * noisePoints labels
                + (rest.length + 1) < f + 1 := by
              simpa [List.length_cons] using hfuel
            omega
          have hD' : closedUpTo pts eps m (labels.set j (c : ℤ))
              (rest ++ nbhd pts eps j) := by
            intro j' hj' hcore' hne' i hi
            by_cases hjj : j' = j
            · subst hjj
              exact Or.inr (List.mem_append_right _ hi)
            · rw [hgd' j' hjj] at hne'
              rcases hD j' hj' hcore' hne' i hi with hlab | hq
              · by_cases hij : i = j
                · subst hij; exact Or.inl hne
                · exact Or.inl (by rw [hgd' i hij]; exact hlab)
              · rcases List.mem_cons.mp hq with rfl | hq
                · exact Or.inl hne
                · exact Or.inr (List.mem_append_left _ hq)
          obtain ⟨P1, P2, P3⟩ := ih (labels.set j (c : ℤ))
            (rest ++ nbhd pts eps j) hlen' hqlt' hfuel' hD' hE' hF'
          refine ⟨?_, P2, P3⟩
          intro j0 hj0
          rcases List.mem_cons.mp hj0 with rfl | hj0
          · rcases expand_getD pts eps m c f (labels.set j0 (c : ℤ))
              (rest ++ nbhd pts eps j0) j0 with h | ⟨_, hc⟩
            · rw [h]; exact hne
            · rw [hc]; exact natCast_ne_neg_one c
          · exact P1 j0 (List.mem_append_left _ hj0)
        · rw [expand_cons_border c f rest h1 h2]
          have hqlt' : ∀ i ∈ rest, i < pts.length :=
            fun i hi => hqlt i (by simp [hi])
          have hfuel' : (pts.length + 1) * noisePoints (labels.set j (c : ℤ))
              + rest.length < f := by
            have h3' : (pts.length + 1) * noisePoints labels
                + (rest.length + 1) < f + 1 := by
              simpa [List.length_cons] using hfuel
            omega
          have hD' : closedUpTo pts eps m (labels.set j (c : ℤ)) rest := by
            intro j' hj' hcore' hne' i hi
            have hjj : j' ≠ j := fun h => h2 (h ▸ hcore')
            rw [hgd' j' hjj] at hne'
            rcases hD j' hj' hcore' hne' i hi with hlab | hq
            · by_cases hij : i = j
              · subst hij; exact Or.inl hne
              · exact Or.inl (by rw [hgd' i hij]; exact hlab)
            · rcases List.mem_cons.mp hq with rfl | hq
              · exact Or.inl hne
              · exact Or.inr hq
          obtain ⟨P1, P2, P3⟩ := ih (labels.set j (c : ℤ)) rest
            hlen' hqlt' hfuel' hD' hE' hF'
          refine ⟨?_, P2, P3⟩
          intro j0 hj0
          rcases List.mem_cons.mp hj0 with rfl | hj0
          · rcases expand_getD pts eps m c f (labels.set j0 (c : ℤ))
              rest j0 with h | ⟨_, hc⟩
            · rw [h]; exact hne
            · rw [hc]; exact natCast_ne_neg_one c
          · exact P1 j0 hj0
      · rw [expand_cons_skip c f rest h1]
        have hqlt' : ∀ i ∈ rest, i < pts.length :=
          fun i hi => hqlt i (by simp [hi])
        have hfuel' : (pts.length + 1) * noisePoints labels + rest.length < f := by
          have h3' : (pts.length + 1) * noisePoints labels
              + (rest.length + 1) < f + 1 := by
            simpa [List.length_cons] using hfuel
          omega
        have hD' : closedUpTo pts eps m labels rest := by
          intro j' hj' hcore' hne' i hi
          rcases hD j' hj' hcore' hne' i hi with hlab | hq
          · exact Or.inl hlab
          · rcases List.mem_cons.mp hq with rfl | hq
            · exact Or.inl h1
            · exact Or.inr hq
        obtain ⟨P1, P2, P3⟩ := ih labels rest hlen hqlt' hfuel' hD' hE hF
        refine ⟨?_, P2, P3⟩
        intro j0 hj0
        rcases List.mem_cons.mp hj0 with rfl | hj0
        · rcases expand_getD pts eps m c f labels rest j0 with h | ⟨hm1, _⟩
          · rw [h]; exact h1
          · exact absurd hm1 h1
        · exact P1 j0 hj0

theorem runLoop_invariant (pts : List PlanarPoint) (eps : ℚ) (m : ℕ)
    (idxs : List ℕ) (labels : List ℤ) (c : ℕ)
    (hlen : labels.length = pts.length)
    (hidx : ∀ i ∈ idxs, i < pts.length)
    (hO1 : closedUpTo pts eps m labels [])
    (hF : coherent pts eps m labels)
    (hok : ∀ i, labelOk (labels.getD i 0))
    (hsound : ∀ i, i < pts.length → labels.getD i 0 ≠ -1 → nearCore pts eps m i) :
    (runLoop pts eps m idxs labels c).length = pts.length ∧
      closedUpTo pts eps m (runLoop pts eps m idxs labels c) [] ∧
      coherent pts eps m (runLoop pts eps m idxs labels c) ∧
      (∀ i, labelOk ((runLoop pts eps m idxs labels c).getD i 0)) ∧
      (∀ i, i < pts.length →
        (runLoop pts eps m idxs labels c).getD i 0 ≠ -1 → nearCore pts eps m i) ∧
      (∀ i, labels.getD i 0 ≠ -1 →
        (runLoop pts eps m idxs labels c).getD i 0 = labels.getD i 0) ∧
      (∀ i ∈ idxs, isCore pts eps m i →
        (runLoop pts eps m idxs labels c).getD i 0 ≠ -1) := by
  induction idxs generalizing labels c with
  | nil =>
    refine ⟨hlen, hO1, hF, hok, hsound, fun i _ => rfl, by simp⟩
  | cons i rest ih =>
    have hin : i < pts.length := hidx i (by simp)
    have hrest : ∀ i0 ∈ rest, i0 < pts.length :=
      fun i0 hi0 => hidx i0 (by simp [hi0])
    by_cases hb : labels.getD i 0 = -1 ∧ isCore pts eps m i
    · rw [runLoop, if_pos hb]
      obtain ⟨hbm1, hbcore⟩ := hb
      have hfuel : (pts.length + 1) * noisePoints labels + ([i] : List ℕ).length
          < fuelBound pts := by
        have hcap : noisePoints labels ≤ pts.length := by
          rw [← hlen]
          exact List.countP_le_length _
        have hmul : (pts.length + 1) * noisePoints labels
            ≤ (pts.length + 1) * pts.length := Nat.mul_le_mul_left _ hcap
        have hsq : fuelBound pts = (pts.length + 1) * pts.length + (pts.length + 1) := by
          unfold fuelBound
          rw [Nat.mul_add, Nat.mul_one]
        simp only [List.length_cons, List.length_nil]
        omega
      have hD0 : closedUpTo pts eps m labels [i] := by
        intro j' hj' hcore' hne' i0 hi0
        exact Or.inl ((hO1 j' hj' hcore' hne' i0 hi0).resolve_right
          (fun h => absurd h (List.not_mem_nil _)))
      have hE0 : oldClosed pts eps m c labels := by
        intro j' hj' hcore' hne' _ i0 hi0
        exact (hO1 j' hj' hcore' hne' i0 hi0).resolve_right
          (fun h => absurd h (List.not_mem_nil _))
      obtain ⟨P1, P2, P3⟩ := expand_complete pts eps m c (fuelBound pts)
        labels [i] hlen (by simpa using hin) hfuel hD0 hE0 hF
      have hlen1 : (expand pts eps m c (fuelBound pts) labels [i]).length
          = pts.length := by
        rw [expand_length]; exact hlen
      have hok1 : ∀ i0, labelOk
          ((expand pts eps m c (fuelBound pts) labels [i]).getD i0 0) :=
        expand_labelOk pts eps m c (fuelBound pts) labels [i] hok
      have hsound1 : ∀ i0, i0 < pts.length →
          (expand pts eps m c (fuelBound pts) labels [i]).getD i0 0 ≠ -1 →
            nearCore pts eps m i0 := by
        refine expand_sound pts eps m c (fuelBound pts) labels [i] hlen hsound ?_
        intro j hj
        rcases List.mem_singleton.mp hj with rfl
        exact ⟨j, hin, hbcore, withinEps_self eps _⟩
      obtain ⟨Q1, Q2, Q3, Q4, Q5, Q6, Q7⟩ := ih
        (expand pts eps m c (fuelBound pts) labels [i]) (c + 1)
        hlen1 hrest P2 P3 hok1 hsound1
      refine ⟨Q1, Q2, Q3, Q4, Q5, ?_, ?_⟩
      · intro i0 hi0
        have hmono := expand_monotone pts eps m c (fuelBound pts) labels [i] i0 hi0
        rw [Q6 i0 (by rw [hmono]; exact hi0), hmono]
      · intro i0 hi0 hcore0
        rcases List.mem_cons.mp hi0 with rfl | hi0
        · have hseed : (expand pts eps m c (fuelBound pts) labels [i0]).getD i0 0
              ≠ -1 := P1 i0 (by simp)
          rw [Q6 i0 hseed]; exact hseed
        · exact Q7 i0 hi0 hcore0
    · rw [runLoop, if_neg hb]
      obtain ⟨Q1, Q2, Q3, Q4, Q5, Q6, Q7⟩ := ih labels c hlen hrest hO1 hF hok hsound
      refine ⟨Q1, Q2, Q3, Q4, Q5, Q6, ?_⟩
      intro i0 hi0 hcore0
      rcases List.mem_cons.mp hi0 with rfl | hi0
      · have hne : labels.getD i0 0 ≠ -1 := by
          intro hm1
          exact hb ⟨hm1, hcore0⟩
        rw [Q6 i0 hne]; exact hne
      · exact Q7 i0 hi0 hcore0

theorem getD_replicate_neg {n i : ℕ} (h : i < n) :
    (List.replicate n (-1 : ℤ)).getD i 0 = -1 := by
  rw [List.getD_eq_getElem?_getD, List.getElem?_replicate_of_lt h, Option.getD_some]

theorem dbscan_facts (pts : List PlanarPoint) (eps : ℚ) (m : ℕ) :
    (dbscanLabels pts eps m).length = pts.length ∧
      closedUpTo pts eps m (dbscanLabels pts eps m) [] ∧
      coherent pts eps m (dbscanLabels pts eps m) ∧
      (∀ i, labelOk ((dbscanLabels pts eps m).getD i 0)) ∧
      (∀ i, i < pts.length →
        (dbscanLabels pts eps m).getD i 0 ≠ -1 → nearCore pts eps m i) ∧
      (∀ i, i < pts.length → isCore pts eps m i →
        (dbscanLabels pts eps m).getD i 0 ≠ -1) := by
  have hlen : (List.replicate pts.length (-1 : ℤ)).length = pts.length :=
    List.length_replicate _ _
  have hO1 : closedUpTo pts eps m (List.replicate pts.length (-1 : ℤ)) [] := by
    intro j' hj' _ hne'
    exact absurd (getD_replicate_neg hj') hne'
  have hF : coherent pts eps m (List.replicate pts.length (-1 : ℤ)) := by
    intro p q hp _ _ _ _ hnp _
    exact absurd (getD_replicate_neg hp) hnp
  have hok : ∀ i, labelOk ((List.replicate pts.length (-1 : ℤ)).getD i 0) := by
    intro i
    by_cases h : i < pts.length
    · rw [getD_replicate_neg h]; exact Or.inl rfl
    · rw [List.getD_eq_getElem?_getD, List.getElem?_replicate, if_neg h]
      exact Or.inr le_rfl
  have hsound : ∀ i, i < pts.length →
      (List.replicate pts.length (-1 : ℤ)).getD i 0 ≠ -1 →
        nearCore pts eps m i := by
    intro i hi hne
    exact absurd (getD_replicate_neg hi) hne
  obtain ⟨Q1, Q2, Q3, Q4, Q5, _, Q7⟩ := runLoop_invariant pts eps m
    (List.range pts.length) (List.replicate pts.length (-1 : ℤ)) 0
    hlen (fun i hi => List.mem_range.mp hi) hO1 hF hok hsound
  exact ⟨Q1, Q2, Q3, Q4, Q5, fun i hi hc => Q7 i (List.mem_range.mpr hi) hc⟩

theorem dbscan_length (pts : List PlanarPoint) (eps : ℚ) (m : ℕ) :
    (dbscanLabels pts eps m).length = pts.length :=
  (dbscan_facts pts eps m).1

theorem dbscan_label_ne_noise_iff (pts : List PlanarPoint) (eps : ℚ) (m : ℕ)
    {i : ℕ} (hi : i < pts.length) :
    (dbscanLabels pts eps m).getD i 0 ≠ -1 ↔ nearCore pts eps m i := by
  obtain ⟨_, hclosed, _, _, hsound, hcores⟩ := dbscan_facts pts eps m
  constructor
  · exact hsound i hi
  · rintro ⟨j, hj, hcore, hw⟩
    have hjlab := hcores j hj hcore
    have hmem : i ∈ nbhd pts eps j := mem_nbhd.mpr ⟨hi, withinEps_symm hw⟩
    exact (hclosed j hj hcore hjlab i hmem).resolve_right
      (fun h => absurd h (List.not_mem_nil _))

theorem isCore_of_minSamples_one (pts : List PlanarPoint) (eps : ℚ) {i : ℕ}
    (hi : i < pts.length) : isCore pts eps 1 i := by
  unfold isCore
  exact List.length_pos_of_mem (self_mem_nbhd hi)

theorem withinEps_mono {eps1 eps2 : ℚ} (h0 : 0 ≤ eps2) (h12 : eps2 ≤ eps1)
    {p q : PlanarPoint} (hw : withinEps eps2 p q) : withinEps eps1 p q := by
  unfold withinEps at hw ⊢
  exact hw.trans (mul_self_le_mul_self h0 h12)

theorem isCore_mono (pts : List PlanarPoint) (m : ℕ) {eps1 eps2 : ℚ}
    (h0 : 0 ≤ eps2) (h12 : eps2 ≤ eps1) {j : ℕ}
    (h : isCore pts eps2 m j) : isCore pts eps1 m j := by
  unfold isCore nbhd at h ⊢
  rw [← List.countP_eq_length_filter] at h ⊢
  refine h.trans (List.countP_mono_left ?_)
  intro i _ hdec
  rw [decide_eq_true_iff] at hdec ⊢
  exact withinEps_mono h0 h12 hdec

theorem nearCore_mono (pts : List PlanarPoint) (m : ℕ) {eps1 eps2 : ℚ}
    (h0 : 0 ≤ eps2) (h12 : eps2 ≤ eps1) {i : ℕ}
    (h : nearCore pts eps2 m i) : nearCore pts eps1 m i := by
  rcases h with ⟨j, hj, hcore, hw⟩
  exact ⟨j, hj, isCore_mono pts m h0 h12 hcore, withinEps_mono h0 h12 hw⟩

theorem countP_getD_range (l : List ℤ) (p : ℤ → Bool) :
    l.countP p = (List.range l.length).countP (fun i => p (l.getD i 0)) := by
  induction l with
  | nil => simp
  | cons x xs ih =>
    rw [List.countP_cons, List.length_cons, List.range_succ_eq_map,
      List.countP_cons, List.countP_map]
    have h1 : ((fun i => p ((x :: xs).getD i 0)) ∘ Nat.succ)
        = fun i => p (xs.getD i 0) := by
      funext i
      simp
    rw [h1, ← ih]
    simp

theorem noise_monotone (pts : List PlanarPoint) (m : ℕ) {eps1 eps2 : ℚ}
    (h0 : 0 ≤ eps2) (h12 : eps2 ≤ eps1) :
    noisePoints (dbscanLabels pts eps1 m) ≤ noisePoints (dbscanLabels pts eps2 m) := by
  unfold noisePoints
  rw [countP_getD_range, countP_getD_range, dbscan_length, dbscan_length]
  refine List.countP_mono_left ?_
  intro i hi hdec
  have hilt : i < pts.length := List.mem_range.mp hi
  rw [decide_eq_true_iff] at hdec ⊢
  by_contra hne2
  have hnear2 : nearCore pts eps2 m i :=
    (dbscan_label_ne_noise_iff pts eps2 m hilt).mp hne2
  have hnear1 : nearCore pts eps1 m i :=
    nearCore_mono pts m h0 h12 hnear2
  exact ((dbscan_label_ne_noise_iff pts eps1 m hilt).mpr hnear1) hdec

theorem cluster_ok_eq {pts : List PlanarPoint} {eps : ℚ} {m : ℕ} {l : List ℤ}
    (h : cluster pts eps m = .ok l) : l = dbscanLabels pts eps m := by
  unfold cluster at h
  by_cases hc : eps ≤ 0 ∨ m < 1
  · rw [if_pos hc] at h
    exact absurd h (by simp)
  · rw [if_neg hc] at h
    by_cases he : pts.isEmpty
    · rw [if_pos he] at h
      exact absurd h (by simp)
    · rw [if_neg he] at h
      exact (Except.ok.inj h).symm

theorem getD_eq_getElem {l : List ℤ} {i : ℕ} (h : i < l.length) :
    l.getD i 0 = l[i] := by
  rw [List.getD_eq_getElem?_getD, List.getElem?_eq_getElem h, Option.getD_some]

/-- Claim C1: the claim as stated is false on the modelled code.  With
eps = 2 and minSamples = 4 on the seven example points, index 4 is a core
point that receives label 1, index 3 lies within eps of it, yet index 3 keeps
label 0, because the first cluster reached that border point first. -/
theorem claim1_counterexample :
    (0 : ℚ) < 2 ∧ 1 ≤ 4 ∧
      cluster examplePts 2 4 = .ok [0, 0, 0, 0, 1, 1, 1] ∧
      isCore examplePts 2 4 4 ∧
      ([0, 0, 0, 0, 1, 1, 1] : List ℤ).getD 4 0 ≠ -1 ∧
      withinEps 2 (examplePts.getD 4 default) (examplePts.getD 3 default) ∧
      ([0, 0, 0, 0, 1, 1, 1] : List ℤ).getD 3 0
        ≠ ([0, 0, 0, 0, 1, 1, 1] : List ℤ).getD 4 0 := by
  refine ⟨?_, ?_, ?_, ?_, ?_, ?_, ?_⟩
  · with_unfolding_all decide
  · decide
  · with_unfolding_all rfl
  · with_unfolding_all decide
  · decide
  · with_unfolding_all decide
  · decide

/-- Claim C1 (amended): for every run with eps > 0 and minSamples >= 1 and
every core point p with a non-noise label, every point within eps of p also
gets a non-noise label, and every CORE point within eps of p gets the same
label as p; a border point within eps of p may carry the label of an earlier
cluster that reached it first. -/
theorem claim1_core_coverage (pts : List PlanarPoint) (eps : ℚ) (m : ℕ)
    (labels : List ℤ) (heps : 0 < eps) (hm : 1 ≤ m)
    (hrun : cluster pts eps m = .ok labels)
    (p : ℕ) (hp : p < pts.length) (hcore : isCore pts eps m p)
    (hlab : labels.getD p 0 ≠ -1)
    (q : ℕ) (hq : q < pts.length)
    (hw : withinEps eps (pts.getD p default) (pts.getD q default)) :
    labels.getD q 0 ≠ -1 ∧
      (isCore pts eps m q → labels.getD q 0 = labels.getD p 0) := by
  obtain rfl := cluster_ok_eq hrun
  have hqne : (dbscanLabels pts eps m).getD q 0 ≠ -1 :=
    (dbscan_label_ne_noise_iff pts eps m hq).mpr ⟨p, hp, hcore, withinEps_symm hw⟩
  refine ⟨hqne, fun hcq => ?_⟩
  obtain ⟨_, _, hcoh, _, _, _⟩ := dbscan_facts pts eps m
  exact hcoh q p hq hp hcq hcore (withinEps_symm hw) hqne hlab

/-- Witness for claim C1 (amended) at the example points with eps = 2,
minSamples = 4, core point 4 and neighbour 5. -/
theorem claim1_core_coverage_witness :
    (dbscanLabels examplePts 2 4).getD 5 0 ≠ -1 ∧
      (isCore examplePts 2 4 5 →
        (dbscanLabels examplePts 2 4).getD 5 0
          = (dbscanLabels examplePts 2 4).getD 4 0) :=
  claim1_core_coverage examplePts 2 4 (dbscanLabels examplePts 2 4)
    (by with_unfolding_all decide) (by decide) (by with_unfolding_all rfl)
    4 (by decide) (by with_unfolding_all decide) (by with_unfolding_all decide)
    5 (by decide) (by with_unfolding_all decide)

/-- Claim C2: for a fixed point list and fixed minSamples, and radii
eps1 >= eps2 > 0, the clustering with the smaller radius labels at least as
many points noise as the clustering with the larger radius. -/
theorem claim2_noise_monotonicity (pts : List PlanarPoint) (m : ℕ)
    (eps1 eps2 : ℚ) (hm : 1 ≤ m) (h2 : 0 < eps2) (h12 : eps2 ≤ eps1)
    (l1 l2 : List ℤ)
    (hr1 : cluster pts eps1 m = .ok l1)
    (hr2 : cluster pts eps2 m = .ok l2) :
    noisePoints l1 ≤ noisePoints l2 := by
  obtain rfl := cluster_ok_eq hr1
  obtain rfl := cluster_ok_eq hr2
  exact noise_monotone pts m h2.le h12

/-- Witness for claim C2 at the example points with minSamples = 4, radii
eps1 = 2 and eps2 = 1. -/
theorem claim2_noise_monotonicity_witness :
    noisePoints (dbscanLabels examplePts 2 4)
      ≤ noisePoints (dbscanLabels examplePts 1 4) :=
  claim2_noise_monotonicity examplePts 4 2 1 (by decide)
    (by with_unfolding_all decide) (by with_unfolding_all decide)
    (dbscanLabels examplePts 2 4) (dbscanLabels examplePts 1 4)
    (by with_unfolding_all rfl) (by with_unfolding_all rfl)

/-- Claim C3: on a non-empty input with eps > 0, clustering with
minSamples = 1 assigns every point a non-noise label. -/
theorem claim3_min_samples_one (pts : List PlanarPoint) (eps : ℚ)
    (labels : List ℤ) (hne : pts ≠ []) (heps : 0 < eps)
    (hrun : cluster pts eps 1 = .ok labels) :
    ∀ z ∈ labels, z ≠ -1 := by
  obtain rfl := cluster_ok_eq hrun
  intro z hz
  obtain ⟨i, hilen, rfl⟩ := List.mem_iff_getElem.mp hz
  have hi : i < pts.length := by
    rw [dbscan_length] at hilen
    exact hilen
  rw [← getD_eq_getElem hilen]
  exact (dbscan_label_ne_noise_iff pts eps 1 hi).mpr
    ⟨i, hi, isCore_of_minSamples_one pts eps hi, withinEps_self eps _⟩

/-- Witness for claim C3 at the example points with eps = 1: the noise
sentinel does not occur among the produced labels. -/
theorem claim3_min_samples_one_witness :
    (-1 : ℤ) ∉ dbscanLabels examplePts 1 1 :=
  fun h => claim3_min_samples_one examplePts 1 (dbscanLabels examplePts 1 1)
    (by decide) (by with_unfolding_all decide) (by with_unfolding_all rfl)
    (-1) h rfl

/-- Claim C9: the clustering entry point reports an invalid configuration
exactly when eps <= 0 or minSamples < 1; with eps > 0 and minSamples >= 1 no
configuration error is ever raised. -/
theorem claim9_config_validation (pts : List PlanarPoint) (eps : ℚ) (m : ℕ) :
    cluster pts eps m = .error .invalidConfig ↔ eps ≤ 0 ∨ m < 1 := by
  unfold cluster
  by_cases hc : eps ≤ 0 ∨ m < 1
  · rw [if_pos hc]
    simpa using hc
  · rw [if_neg hc]
    by_cases he : pts.isEmpty
    · rw [if_pos he]
      constructor
      · intro h
        cases Except.error.inj h
      · intro h
        exact absurd h hc
    · rw [if_neg he]
      constructor
      · intro h
        exact absurd h (by simp)
      · intro h
        exact absurd h hc

theorem clusterColors_getD_ne_gray :
    ∀ k, k < 11 → clusterColors.getD k "gray" ≠ "gray" := by
  decide

/-- Claim C10: every label the clustering produces is -1 or a non-negative
integer, and the consumers embedded from the sources treat a point as noise
exactly when its label is -1: the colour map paints gray exactly the -1
labels, the noise counter counts exactly the -1 labels, and the cluster
counter counts exactly the distinct labels other than -1. -/
theorem claim10_noise_sentinel (pts : List PlanarPoint) (eps : ℚ) (m : ℕ)
    (labels : List ℤ) (hrun : cluster pts eps m = .ok labels) :
    (∀ z ∈ labels, z = -1 ∨ 0 ≤ z) ∧
      (∀ z ∈ labels, (get_cluster_color z = "gray" ↔ z = -1)) ∧
      noisePoints labels = (labels.filter fun z => decide (z = -1)).length ∧
      numClusters labels = (labels.dedup.filter fun z => decide (z ≠ -1)).length := by
  obtain rfl := cluster_ok_eq hrun
  have hok : ∀ z ∈ dbscanLabels pts eps m, z = -1 ∨ 0 ≤ z := by
    intro z hz
    obtain ⟨i, hilen, rfl⟩ := List.mem_iff_getElem.mp hz
    rw [← getD_eq_getElem hilen]
    exact (dbscan_facts pts eps m).2.2.2.1 i
  refine ⟨hok, ?_, ?_, ?_⟩
  · intro z hz
    constructor
    · intro hgray
      by_contra hne
      rcases hok z hz with h | h
      · exact hne h
      · have hmod0 : (0 : ℤ) ≤ z % 11 := Int.emod_nonneg z (by norm_num)
        have hmod1 : z % 11 < 11 := Int.emod_lt_of_pos z (by norm_num)
        have htn : (z % 11).toNat < 11 := by omega
        rw [get_cluster_color, if_neg hne] at hgray
        exact clusterColors_getD_ne_gray _ htn hgray
    · intro h
      rw [get_cluster_color, if_pos h]
  · rw [noisePoints, List.countP_eq_length_filter]
  · rw [← List.countP_eq_length_filter]
    unfold numClusters
    have hdd := List.count_dedup (dbscanLabels pts eps m) (-1)
    have hcnt : (dbscanLabels pts eps m).dedup.countP (fun z => z == -1)
        = if (-1 : ℤ) ∈ dbscanLabels pts eps m then 1 else 0 := hdd
    have hsplit := List.length_eq_countP_add_countP
      (p := fun z : ℤ => z == -1) ((dbscanLabels pts eps m).dedup)
    have hcongr : (dbscanLabels pts eps m).dedup.countP (fun z => decide (z ≠ -1))
        = (dbscanLabels pts eps m).dedup.countP (fun z => !(z == -1)) := by
      congr 1
      funext z
      by_cases h : z = -1 <;> simp [h]
    rw [hcongr]
    have hsplit' : ((dbscanLabels pts eps m).dedup).length
        = (if (-1 : ℤ) ∈ dbscanLabels pts eps m then 1 else 0)
          + (dbscanLabels pts eps m).dedup.countP (fun z => !(z == -1)) := by
      rw [hsplit, hcnt]
      congr 1
      apply List.countP_congr
      intro z _
      by_cases h : z = -1 <;> simp [h]
    omega

/-- Witness for claim C10 at the example points with eps = 2, minSamples = 4. -/
theorem claim10_noise_sentinel_witness :
    (∀ z ∈ dbscanLabels examplePts 2 4, z = -1 ∨ 0 ≤ z) ∧
      (∀ z ∈ dbscanLabels examplePts 2 4,
        (get_cluster_color z = "gray" ↔ z = -1)) ∧
      noisePoints (dbscanLabels examplePts 2 4)
        = ((dbscanLabels examplePts 2 4).filter fun z => decide (z = -1)).length ∧
      numClusters (dbscanLabels examplePts 2 4)
        = ((dbscanLabels examplePts 2 4).dedup.filter
            fun z => decide (z ≠ -1)).length :=
  claim10_noise_sentinel examplePts 2 4 (dbscanLabels examplePts 2 4)
    (by with_unfolding_all rfl)

/-- Claim C5: the claim as stated is false on the code.  At the in-range
point longitude -121, latitude -10, the selected EPSG code is the northern
32610 even though the latitude is negative: get_utm_epsg ignores the
latitude and always assumes the Northern Hemisphere. -/
theorem claim5_counterexample :
    validGeodetic ⟨-121, -10⟩ ∧
      ¬ (epsgIsNorthern (get_utm_epsg (-121)) ↔ (0 : ℚ) ≤ -10) := by
  constructor
  · with_unfolding_all decide
  · with_unfolding_all decide

/-- Claim C5 (amended): for every longitude in [-180, 180] the selected zone
is floor((longitude + 180) / 6) + 1 - so longitude -121 selects zone 10, see
the witness - but the hemisphere of the selected EPSG code is always the
northern one, whatever the latitude. -/
theorem claim5_zone_selection (lon : ℚ) (h1 : -180 ≤ lon) (h2 : lon ≤ 180) :
    utm_zone lon = ⌊(lon + 180) / 6⌋ + 1 ∧
      get_utm_epsg lon = 32600 + (⌊(lon + 180) / 6⌋ + 1) ∧
      epsgIsNorthern (get_utm_epsg lon) := by
  have harg : (0 : ℚ) ≤ (lon + 180) / 6 := by
    apply div_nonneg _ (by norm_num)
    linarith
  have hzone : utm_zone lon = ⌊(lon + 180) / 6⌋ + 1 := by
    unfold utm_zone pyInt
    rw [if_pos harg]
  have hfl0 : (0 : ℤ) ≤ ⌊(lon + 180) / 6⌋ := Int.floor_nonneg.mpr harg
  have hfl60 : ⌊(lon + 180) / 6⌋ ≤ 60 := by
    have hle : (lon + 180) / 6 ≤ ((60 : ℤ) : ℚ) := by
      push_cast
      linarith
    exact (Int.floor_le_floor hle).trans_eq (Int.floor_intCast 60)
  refine ⟨hzone, ?_, ?_⟩
  · unfold get_utm_epsg
    rw [hzone]
  · unfold get_utm_epsg
    rw [hzone]
    unfold epsgIsNorthern
    omega

/-- Witness for claim C5 (amended) at longitude -121: zone 10, EPSG 32610,
northern hemisphere. -/
theorem claim5_zone_selection_witness :
    (-180 ≤ (-121 : ℚ) ∧ (-121 : ℚ) ≤ 180) ∧
      (utm_zone (-121) = ⌊((-121 : ℚ) + 180) / 6⌋ + 1 ∧
        get_utm_epsg (-121) = 32600 + (⌊((-121 : ℚ) + 180) / 6⌋ + 1) ∧
        epsgIsNorthern (get_utm_epsg (-121))) ∧
      utm_zone (-121) = 10 :=
  ⟨⟨by with_unfolding_all decide, by with_unfolding_all decide⟩,
    claim5_zone_selection (-121) (by with_unfolding_all decide)
      (by with_unfolding_all decide),
    by with_unfolding_all decide⟩

/-- Claim C7: the claim as stated is false on the code.  At density 35 per
km², the code suggests max(3, int(3.5)) = 3 while the claimed formula with
rounding gives max(3, round(3.5)) = 4. -/
theorem claim7_counterexample :
    suggested_min_samples 35 = 3 ∧
      max (3 : ℤ) (round ((35 : ℚ) / 10)) = 4 := by
  constructor
  · with_unfolding_all decide
  · with_unfolding_all decide

/-- Claim C7 (amended): the statistics layer returns exactly
suggestedEps = min(width, height) / 20 and, for the (non-negative) density,
suggestedMinSamples = max(3, floor(densityPerKm2 / 10)): the code truncates
with int() instead of rounding. -/
theorem claim7_suggested_parameters (width height density : ℚ)
    (hd : 0 ≤ density) :
    suggested_eps width height = min width height / 20 ∧
      suggested_min_samples density = max 3 ⌊density / 10⌋ := by
  refine ⟨rfl, ?_⟩
  unfold suggested_min_samples pyInt
  rw [if_pos (div_nonneg hd (by norm_num))]

/-- Witness for claim C7 (amended) at width 4000, height 6000, density 35. -/
theorem claim7_suggested_parameters_witness :
    (0 : ℚ) ≤ 35 ∧
      (suggested_eps 4000 6000 = min (4000 : ℚ) 6000 / 20 ∧
        suggested_min_samples 35 = max 3 ⌊(35 : ℚ) / 10⌋) ∧
      suggested_min_samples 35 = 3 :=
  ⟨by with_unfolding_all decide,
    claim7_suggested_parameters 4000 6000 35 (by with_unfolding_all decide),
    by with_unfolding_all decide⟩

/-- Claim C8: toPlanar raises a validation error exactly on points outside
the valid longitude and latitude ranges, and an in-range point is projected,
without clamping, into the zone computed from its unmodified longitude. -/
theorem claim8_projection_validation (p : GeodeticPoint) :
    (toPlanarZone p = .error .validationError ↔ ¬ validGeodetic p) ∧
      (validGeodetic p → toPlanarZone p = .ok (get_utm_epsg p.lon)) := by
  unfold toPlanarZone
  by_cases h : validGeodetic p
  · rw [if_pos h]
    exact ⟨by simp [h], fun _ => rfl⟩
  · rw [if_neg h]
    exact ⟨by simp [h], fun hv => absurd hv h⟩

/-- Witness for claim C8 at the in-range point (-121, 37.6). -/
theorem claim8_projection_validation_witness :
    validGeodetic ⟨-121, 188 / 5⟩ ∧
      toPlanarZone ⟨-121, 188 / 5⟩ = .ok (get_utm_epsg (-121)) :=
  ⟨by with_unfolding_all decide,
    (claim8_projection_validation ⟨-121, 188 / 5⟩).2
      (by with_unfolding_all decide)⟩

/-- Claim C4: the claim as stated is false on the code.  The generation code
draws from the global NumPy random state: calling create_hotspot twice in a
row with identical arguments, without reseeding in between, yields two
different point lists, so the output depends on the ambient global mutable
random state rather than on an explicitly passed generator. -/
theorem claim4_counterexample :
    (create_hotspot 0 0 1 1 (np_random_seed 42)).1
      ≠ (create_hotspot 0 0 1 1
          ((create_hotspot 0 0 1 1 (np_random_seed 42)).2)).1 := by
  with_unfolding_all decide

/-- Claim C4 (amended): the generation script starts with np.random.seed, so
two runs with the same seed, hotspot list, noise count and bounds produce
identical point lists whatever the ambient global random state was before
each run; the generation draws from the seeded global state, not from a
passed generator instance.  The clusterer takes no random input at all, so
two runs on the same input are identical. -/
theorem claim4_seeded_determinism (a1 a2 : RngState) (seed : ℕ)
    (hotspots : List Hotspot) (noiseCount : ℕ)
    (lat_min lat_max lon_min lon_max : ℚ)
    (pts : List PlanarPoint) (eps : ℚ) (m : ℕ) :
    runGeneration a1 seed hotspots noiseCount lat_min lat_max lon_min lon_max
        = runGeneration a2 seed hotspots noiseCount lat_min lat_max lon_min lon_max
      ∧ cluster pts eps m = cluster pts eps m :=
  ⟨rfl, rfl⟩

end PMG
